import Mathlib

/-!
# Verification of the geneio gene-assembly core

A shallow embedding of `geneio.go` (package geneio of daixiongming/geneio):
the grouping reader, gene builder, transcript builders and exon merger.
Coordinates are Go `int` values, modelled as `Int`; `maxInt` is Go's largest
64-bit int, used by the source as the seed of its minimum computations.

Feature records carry their type as a string (the Go code compares
`Type()` against the literals "exon", "start_codon" and "stop_codon");
orientation is biogo's three-valued `feat.Orientation`.
-/

deriving instance DecidableEq for Except

namespace Geneio

/-- biogo `feat.Orientation`: Forward (1), Reverse (-1), NotOriented (0). -/
inductive Ori where
  | forward
  | reverse
  | notOriented
deriving DecidableEq, Repr

/-- Orientation of a feature resolved through its parent: a feature that is
`child`-oriented relative to a `parent`-oriented location. -/
def oriCompose (parent child : Ori) : Ori :=
  match child with
  | .forward => parent
  | .reverse =>
    match parent with
    | .forward => .reverse
    | .reverse => .forward
    | .notOriented => .notOriented
  | .notOriented => .notOriented

/-- The Go constant `maxInt = int(^uint(0) >> 1)` on a 64-bit platform. -/
def maxInt : Int := 9223372036854775807

/-- The `geneio.Feature` interface data: gene id, transcript id, type string,
orientation, location identity (chromosome name) and the half-open
`[start, end)` interval. `end` is spelled `fend` (`end` is reserved). -/
structure Feature where
  gid : String
  tid : String
  ftype : String
  ori : Ori
  loc : String
  start : Int
  fend : Int
deriving DecidableEq, Repr

/-- `gene.Exon` as used by geneio: transcript-relative offset and length.
The Go struct also back-references its owning transcript; all exons handled
together belong to one transcript, so `End() == Start()` comparisons between
them reduce to `offset + length == offset`. -/
structure Exon where
  offset : Int
  length : Int
deriving DecidableEq, Repr

/-- `gene.CodingTranscript` fields set by geneio. `locGene` records the id of
the gene feature the transcript is placed on (Go sets `Loc: g`). -/
structure CodingTranscript where
  id : String
  locGene : String
  orient : Ori
  offset : Int
  cdsStart : Int
  cdsEnd : Int
  exons : List Exon
deriving DecidableEq, Repr

/-- `gene.NonCodingTranscript` fields set by geneio. -/
structure NonCodingTranscript where
  id : String
  locGene : String
  orient : Ori
  offset : Int
  exons : List Exon
deriving DecidableEq, Repr

/-- A transcript is either coding or non-coding (`gene.Transcript` values
produced by `newTrancript`). -/
inductive Transcript where
  | coding (t : CodingTranscript)
  | nonCoding (t : NonCodingTranscript)
deriving DecidableEq, Repr

def Transcript.offset : Transcript → Int
  | .coding t => t.offset
  | .nonCoding t => t.offset

def Transcript.exons : Transcript → List Exon
  | .coding t => t.exons
  | .nonCoding t => t.exons

def Transcript.orient : Transcript → Ori
  | .coding t => t.orient
  | .nonCoding t => t.orient

def Transcript.locGene : Transcript → String
  | .coding t => t.locGene
  | .nonCoding t => t.locGene

def Transcript.id : Transcript → String
  | .coding t => t.id
  | .nonCoding t => t.id

/-- `gene.Gene` fields set by geneio: id, orientation, chromosome (`Chrom`),
absolute offset, and the attached transcripts (`SetFeatures`). -/
structure Gene where
  id : String
  orient : Ori
  chrom : String
  offset : Int
  transcripts : List Transcript
deriving DecidableEq, Repr

/-- The errors the geneio core can surface: the two `FeaturesError`s,
the external exon-overlap rejection, an underlying record-source error
(carrying an opaque code), and `io.EOF`. -/
inductive Err where
  | varyingOrientation (gid : String)
  | varyingLocation (gid : String)
  | overlap
  | src (code : Nat)
  | eof
deriving DecidableEq, Repr

/-! ## Exon merger (`mergeExons`) -/

/-- The loop of `mergeExons`: `last` is the last accepted exon
(`merged[len(merged)-1]`); a touching next exon extends it in place,
any other next exon is appended and becomes the new last. -/
def mergeExonsRun (last : Exon) : List Exon → List Exon
  | [] => [last]
  | e :: rest =>
    if last.offset + last.length = e.offset then
      mergeExonsRun ⟨last.offset, last.length + e.length⟩ rest
    else
      last :: mergeExonsRun e rest

/-- `mergeExons`: slices of length < 2 are returned unchanged, otherwise a
single left-to-right pass concatenates touching exons. -/
def mergeExons : List Exon → List Exon
  | [] => []
  | [e] => [e]
  | e :: rest => mergeExonsRun e rest

/-! ## External structural checks (biogo `gene` package collaborators) -/

/-- Modelled from the spec: the external collaborator check behind
`SetExons` — "Attaching a merged exon sequence that the transcript's own
structural check rejects (e.g., overlap) surfaces that error verbatim".
Returns `true` when two consecutive exons of the (extraction-ordered)
sequence overlap. The biogo implementation is not part of this repository. -/
def exonsOverlap : List Exon → Bool
  | a :: b :: rest => decide (b.offset < a.offset + a.length) || exonsOverlap (b :: rest)
  | _ => false

/-! ## Transcript builders -/

/-- The minimum-start loop shared by both transcript builders:
`minStart := maxInt; for f in s { if f.Start() < minStart { ... } }`. -/
def minStartFold (s : List Feature) : Int :=
  s.foldl (fun m f => if f.start < m then f.start else m) maxInt

/-- Intermediate state of `newCodingTranscript`'s parse loop: the exon slice
being accumulated and the transcript's CDS fields (Go zero value 0). -/
structure CodingParse where
  exons : List Exon
  cdsStart : Int
  cdsEnd : Int
deriving DecidableEq, Repr

/-- One iteration of the `switch f.Type()` loop of `newCodingTranscript`,
with the transcript offset `tOffset` and gene offset `gOffset` fixed. -/
def codingStep (tOffset gOffset : Int) (st : CodingParse) (f : Feature) : CodingParse :=
  if f.ftype = "exon" then
    { st with exons := st.exons ++ [⟨f.start - tOffset - gOffset, f.fend - f.start⟩] }
  else if f.ftype = "start_codon" then
    match f.ori with
    | .forward => { st with cdsStart := f.start - tOffset - gOffset }
    | .reverse => { st with cdsEnd := f.fend - tOffset - gOffset }
    | .notOriented => st
  else if f.ftype = "stop_codon" then
    match f.ori with
    | .forward => { st with cdsEnd := f.fend - tOffset - gOffset }
    | .reverse => { st with cdsStart := f.start - tOffset - gOffset }
    | .notOriented => st
  else st

/-- `newCodingTranscript`: offset from the minimum start, CDS bounds and
exons from the parse loop, exons merged and attached via the external
`SetExons` check. -/
def newCodingTranscript (g : Gene) (tid : String) (s : List Feature) :
    Except Err CodingTranscript :=
  let minStart := minStartFold s
  let tOffset := minStart - g.offset
  let p := s.foldl (codingStep tOffset g.offset) ⟨[], 0, 0⟩
  let exons := mergeExons p.exons
  if exonsOverlap exons then .error .overlap
  else .ok ⟨tid, g.id, Ori.forward, tOffset, p.cdsStart, p.cdsEnd, exons⟩

/-- One iteration of the parse loop of `newNonCodingTranscript`: only
records of type "exon" contribute. -/
def nonCodingStep (tOffset gOffset : Int) (st : List Exon) (f : Feature) : List Exon :=
  if f.ftype = "exon" then
    st ++ [⟨f.start - tOffset - gOffset, f.fend - f.start⟩]
  else st

/-- `newNonCodingTranscript`: as the coding builder but with no CDS fields. -/
def newNonCodingTranscript (g : Gene) (tid : String) (s : List Feature) :
    Except Err NonCodingTranscript :=
  let minStart := minStartFold s
  let tOffset := minStart - g.offset
  let exons0 := s.foldl (nonCodingStep tOffset g.offset) []
  let exons := mergeExons exons0
  if exonsOverlap exons then .error .overlap
  else .ok ⟨tid, g.id, Ori.forward, tOffset, exons⟩

/-- `newTrancript` (sic): a transcript block containing a record of type
"start_codon" is built as coding, any other block as non-coding. -/
def newTrancript (g : Gene) (tid : String) (s : List Feature) :
    Except Err Transcript :=
  if s.any (fun f => f.ftype == "start_codon") then
    (newCodingTranscript g tid s).map Transcript.coding
  else
    (newNonCodingTranscript g tid s).map Transcript.nonCoding

/-! ## Gene builder (`geneBlock.ToGene`) -/

/-- `geneBlock`: the accumulated features of one contiguous gene id run,
keyed by the first record's gene id, location and orientation. -/
structure GeneBlock where
  id : String
  loc : String
  ori : Ori
  feats : List Feature
deriving DecidableEq, Repr

/-- The first loop of `ToGene`: lowers the gene offset to each record's
start and rejects any record whose orientation or location differs from the
block's (the gene's) one, in that order. -/
def scanBlock (gOri : Ori) (gLoc : String) (gid : String) :
    Int → List Feature → Except Err Int
  | off, [] => .ok off
  | off, f :: rest =>
    let off := if f.start < off then f.start else off
    if f.ori ≠ gOri then .error (.varyingOrientation gid)
    else if f.loc ≠ gLoc then .error (.varyingLocation gid)
    else scanBlock gOri gLoc gid off rest

/-- The transcript-partition loop of `ToGene`, rendered as a single pass:
`run` accumulates the current contiguous `tid` run (the Go code tracks it
with indices `i`/`j`); at each transcript-id change, and at the end of the
block, the completed run is handed to `newTrancript`. -/
def buildTransAux (g : Gene) (tid : String) (run : List Feature) :
    List Feature → Except Err (List Transcript)
  | [] => (newTrancript g tid run).map ([·])
  | f :: rest =>
    if f.tid = tid then buildTransAux g tid (run ++ [f]) rest
    else
      match newTrancript g tid run with
      | .error e => .error e
      | .ok t =>
        match buildTransAux g f.tid [f] rest with
        | .error e => .error e
        | .ok ts => .ok (t :: ts)

/-- Partition a gene block's features into contiguous transcript-id runs and
build one transcript per run, propagating the first error. -/
def buildTranscripts (g : Gene) : List Feature → Except Err (List Transcript)
  | [] => .ok []
  | f :: rest => buildTransAux g f.tid [f] rest

/-- `geneBlock.ToGene`: initialize the gene from the block header with
`Offset: maxInt`, run the offset/consistency scan, build the transcripts and
attach them. The final `g.SetFeatures` structural check is an external
collaborator (biogo), modelled from the spec as accepting. -/
def toGene (b : GeneBlock) : Except Err Gene :=
  let g0 : Gene := ⟨b.id, b.ori, b.loc, maxInt, []⟩
  match scanBlock b.ori b.loc b.id maxInt b.feats with
  | .error e => .error e
  | .ok off =>
    let g1 : Gene := { g0 with offset := off }
    match buildTranscripts g1 b.feats with
    | .error e => .error e
    | .ok ts => .ok { g1 with transcripts := ts }

/-! ## Grouping reader (`GeneReader`) -/

/-- One pull from the underlying `FeatureReader`: either a feature or a
source error (opaque code). Exhaustion of the list is `io.EOF`. -/
inductive SrcItem where
  | item (f : Feature)
  | fail (code : Nat)
deriving DecidableEq, Repr

/-- `GeneReader` state: the remaining record source and the in-progress
accumulation block (`r.blk`). -/
structure RState where
  src : List SrcItem
  blk : Option GeneBlock
deriving DecidableEq, Repr

/-- Go's `(gene.Interface, error)` pair produced from a `ToGene` result. -/
def geneResult : Except Err Gene → Option Gene × Option Err
  | .ok g => (some g, none)
  | .error e => (none, some e)

/-- Seed a fresh block from a just-read feature (`&geneBlock{ID: f.GID(),
loc: f.Location(), ori: f.Orientation()}` plus the feature itself). -/
def startBlock (f : Feature) : GeneBlock :=
  ⟨f.gid, f.loc, f.ori, [f]⟩

/-- `GeneReader.Read` on an explicit source/block state: pull records until
a gene-id boundary or the end of the source; returns the Go result pair
together with the reader state left behind. -/
def readGo : List SrcItem → Option GeneBlock → (Option Gene × Option Err) × RState
  | [], none => ((none, some .eof), ⟨[], none⟩)
  | [], some b => (geneResult (toGene b), ⟨[], none⟩)
  | .fail code :: rest, blk => ((none, some (.src code)), ⟨rest, blk⟩)
  | .item f :: rest, none => readGo rest (some (startBlock f))
  | .item f :: rest, some b =>
    if b.id = f.gid then
      readGo rest (some { b with feats := b.feats ++ [f] })
    else
      (geneResult (toGene b), ⟨rest, some (startBlock f)⟩)

/-- `GeneReader.Read` as a transition on the reader state. -/
def read (st : RState) : (Option Gene × Option Err) × RState :=
  readGo st.src st.blk

/-- Termination measure for the `ReadAll` loop: every `Read` that returns a
gene either consumed source items or cleared the final block. -/
def rmeasure (st : RState) : Nat :=
  2 * st.src.length + (if st.blk.isSome then 1 else 0)

theorem read_success_rmeasure :
    ∀ (src : List SrcItem) (blk : Option GeneBlock) (g : Gene) (st' : RState),
      readGo src blk = ((some g, none), st') → rmeasure st' < rmeasure ⟨src, blk⟩ := by
  intro src
  induction src with
  | nil =>
    intro blk g st' h
    cases blk with
    | none => simp [readGo] at h
    | some b =>
      rw [readGo] at h
      cases htg : toGene b with
      | error e => rw [htg] at h; simp [geneResult] at h
      | ok g0 =>
        rw [htg] at h
        simp only [geneResult, Prod.mk.injEq, Option.some.injEq] at h
        obtain ⟨⟨rfl, -⟩, rfl⟩ := h
        simp [rmeasure]
  | cons x rest ih =>
    intro blk g st' h
    cases x with
    | fail code => simp [readGo] at h
    | item f =>
      cases blk with
      | none =>
        rw [readGo] at h
        have hm := ih (some (startBlock f)) g st' h
        simp [rmeasure] at hm ⊢
        omega
      | some b =>
        rw [readGo] at h
        by_cases hid : b.id = f.gid
        · rw [if_pos hid] at h
          have hm := ih (some { b with feats := b.feats ++ [f] }) g st' h
          simp [rmeasure] at hm ⊢
          omega
        · rw [if_neg hid] at h
          cases htg : toGene b with
          | error e => rw [htg] at h; simp [geneResult] at h
          | ok g0 =>
            rw [htg] at h
            simp only [geneResult, Prod.mk.injEq, Option.some.injEq] at h
            obtain ⟨⟨rfl, -⟩, rfl⟩ := h
            simp only [rmeasure, List.length_cons, Option.isSome_some]
            omega

/-- `GeneReader.ReadAll`: loop `Read`, collecting genes; `io.EOF` ends the
loop with no error; any other error is returned with a nil gene slice,
discarding everything collected. (`Read` never returns a nil gene together
with a nil error, see `read_no_silent`; the unreachable fourth branch
returns the empty result.) -/
def readAll (st : RState) : List Gene × Option Err :=
  match h : read st with
  | ((_, some .eof), _) => ([], none)
  | ((_, some e), _) => ([], some e)
  | ((some g, none), st') =>
    match readAll st' with
    | (gs, none) => (g :: gs, none)
    | (_, some e) => ([], some e)
  | ((none, none), _) => ([], none)
termination_by rmeasure st
decreasing_by
  have hm := read_success_rmeasure st.src st.blk g st' h
  simpa using hm

/-- `Read` never returns a nil gene together with a nil error: every
successful return carries a gene and every other return carries an error. -/
theorem read_no_silent :
    ∀ (src : List SrcItem) (blk : Option GeneBlock),
      (readGo src blk).1 ≠ (none, none) := by
  intro src
  induction src with
  | nil =>
    intro blk
    cases blk with
    | none => simp [readGo]
    | some b =>
      rw [readGo]
      cases toGene b <;> simp [geneResult]
  | cons x rest ih =>
    intro blk
    cases x with
    | fail code => simp [readGo]
    | item f =>
      cases blk with
      | none => rw [readGo]; exact ih _
      | some b =>
        rw [readGo]
        by_cases hid : b.id = f.gid
        · rw [if_pos hid]; exact ih _
        · rw [if_neg hid]
          cases toGene b <;> simp [geneResult]

/-! ## Scanner -/

/-- `Scanner` state: the wrapped reader, the most recent gene and the first
error observed. -/
structure Scanner where
  st : RState
  g : Option Gene
  err : Option Err
deriving DecidableEq, Repr

/-- `NewScanner`: a fresh scanner over a record source. -/
def newScanner (src : List SrcItem) : Scanner :=
  ⟨⟨src, none⟩, none, none⟩

/-- `Scanner.Next`: once an error is stored the scanner returns false
without touching the reader; otherwise it performs one `Read`, stores its
result, and reports whether it succeeded. -/
def Scanner.next (s : Scanner) : Bool × Scanner :=
  if s.err.isSome then (false, s)
  else
    let r := read s.st
    (r.1.2.isNone, ⟨r.2, r.1.1, r.1.2⟩)

/-- `Scanner.Error`: the first non-EOF error encountered. -/
def Scanner.error (s : Scanner) : Option Err :=
  match s.err with
  | some .eof => none
  | e => e

/-! ## Lemmas about the exon merger -/

/-- Two consecutive exons that the merger must keep separate. -/
def NoTouch (a b : Exon) : Prop := a.offset + a.length ≠ b.offset

theorem mergeExonsRun_head :
    ∀ (rest : List Exon) (last : Exon),
      ∃ l tl, mergeExonsRun last rest = ⟨last.offset, l⟩ :: tl := by
  intro rest
  induction rest with
  | nil => intro last; exact ⟨last.length, [], rfl⟩
  | cons e rest ih =>
    intro last
    rw [mergeExonsRun]
    by_cases htouch : last.offset + last.length = e.offset
    · rw [if_pos htouch]
      exact ih ⟨last.offset, last.length + e.length⟩
    · rw [if_neg htouch]
      exact ⟨last.length, mergeExonsRun e rest, rfl⟩

theorem mergeExonsRun_chain :
    ∀ (rest : List Exon) (last : Exon),
      List.Chain' NoTouch (mergeExonsRun last rest) := by
  intro rest
  induction rest with
  | nil => intro last; simp [mergeExonsRun]
  | cons e rest ih =>
    intro last
    rw [mergeExonsRun]
    by_cases htouch : last.offset + last.length = e.offset
    · rw [if_pos htouch]; exact ih _
    · rw [if_neg htouch]
      obtain ⟨l, tl, hshape⟩ := mergeExonsRun_head rest e
      rw [hshape]
      have hchain := ih e
      rw [hshape] at hchain
      exact List.chain'_cons.mpr ⟨htouch, hchain⟩

theorem mergeExonsRun_of_chain :
    ∀ (rest : List Exon) (last : Exon),
      List.Chain' NoTouch (last :: rest) → mergeExonsRun last rest = last :: rest := by
  intro rest
  induction rest with
  | nil => intro last _; rfl
  | cons e rest ih =>
    intro last hchain
    obtain ⟨hne, htail⟩ := List.chain'_cons.mp hchain
    rw [mergeExonsRun, if_neg hne, ih e htail]

theorem mergeExons_of_chain (xs : List Exon) (h : List.Chain' NoTouch xs) :
    mergeExons xs = xs := by
  match xs with
  | [] => rfl
  | [e] => rfl
  | e :: f :: rest => exact mergeExonsRun_of_chain (f :: rest) e h

theorem mergeExons_chain (xs : List Exon) : List.Chain' NoTouch (mergeExons xs) := by
  match xs with
  | [] => simp [mergeExons]
  | [e] => simp [mergeExons]
  | e :: f :: rest => exact mergeExonsRun_chain (f :: rest) e

/-- Total exonic length of a slice. -/
def sumLength (xs : List Exon) : Int := (xs.map Exon.length).sum

theorem mergeExonsRun_sumLength :
    ∀ (rest : List Exon) (last : Exon),
      sumLength (mergeExonsRun last rest) = last.length + sumLength rest := by
  intro rest
  induction rest with
  | nil => intro last; simp [mergeExonsRun, sumLength]
  | cons e rest ih =>
    intro last
    rw [mergeExonsRun]
    by_cases htouch : last.offset + last.length = e.offset
    · rw [if_pos htouch, ih]
      simp only [sumLength, List.map_cons, List.sum_cons]
      ring
    · rw [if_neg htouch]
      simp only [sumLength, List.map_cons, List.sum_cons] at *
      rw [ih]

theorem mergeExonsRun_length_le :
    ∀ (rest : List Exon) (last : Exon),
      (mergeExonsRun last rest).length ≤ rest.length + 1 := by
  intro rest
  induction rest with
  | nil => intro last; simp [mergeExonsRun]
  | cons e rest ih =>
    intro last
    rw [mergeExonsRun]
    by_cases htouch : last.offset + last.length = e.offset
    · rw [if_pos htouch]
      exact le_trans (ih _) (by simp)
    · rw [if_neg htouch]
      simpa using ih e

/-! ## Claims about the exon merger -/

/-- C9: the exon merger is idempotent (`mergeExons (mergeExons xs) =
mergeExons xs`); sequences of length 0 or 1 pass through unchanged; and the
merge is a single left-to-right pass whose loop extends the last accepted
exon in place when its end equals the next exon's start and appends the
next exon otherwise. -/
theorem claim_C9_mergeExons_idempotent :
    (∀ xs : List Exon, mergeExons (mergeExons xs) = mergeExons xs)
    ∧ mergeExons [] = []
    ∧ (∀ e : Exon, mergeExons [e] = [e])
    ∧ (∀ (last e : Exon) (rest : List Exon),
        last.offset + last.length = e.offset →
        mergeExonsRun last (e :: rest) =
          mergeExonsRun ⟨last.offset, last.length + e.length⟩ rest)
    ∧ (∀ (last e : Exon) (rest : List Exon),
        last.offset + last.length ≠ e.offset →
        mergeExonsRun last (e :: rest) = last :: mergeExonsRun e rest) := by
  refine ⟨fun xs => mergeExons_of_chain _ (mergeExons_chain xs), rfl, fun e => rfl,
    fun last e rest h => ?_, fun last e rest h => ?_⟩
  · rw [mergeExonsRun, if_pos h]
  · rw [mergeExonsRun, if_neg h]

/-- C9 witness: the merge loop at concrete touching and non-touching
pairs. -/
theorem claim_C9_witness :
    mergeExonsRun ⟨0, 5⟩ [⟨5, 7⟩] = [⟨0, 12⟩]
    ∧ mergeExonsRun ⟨0, 5⟩ [⟨6, 7⟩] = [⟨0, 5⟩, ⟨6, 7⟩] := by
  constructor
  · rw [claim_C9_mergeExons_idempotent.2.2.2.1 ⟨0, 5⟩ ⟨5, 7⟩ [] (by decide)]
    decide
  · rw [claim_C9_mergeExons_idempotent.2.2.2.2 ⟨0, 5⟩ ⟨6, 7⟩ [] (by decide)]
    decide

/-- C10: the merger preserves the total exonic length; for a non-empty
input the first output exon keeps the first input exon's offset; and the
output is never longer than the input. -/
theorem claim_C10_mergeExons_conservation :
    (∀ xs : List Exon, sumLength (mergeExons xs) = sumLength xs)
    ∧ (∀ (x : Exon) (xs : List Exon),
        ∃ l tl, mergeExons (x :: xs) = ⟨x.offset, l⟩ :: tl)
    ∧ (∀ xs : List Exon, (mergeExons xs).length ≤ xs.length) := by
  refine ⟨fun xs => ?_, fun x xs => ?_, fun xs => ?_⟩
  · match xs with
    | [] => rfl
    | [e] => rfl
    | e :: f :: rest =>
      show sumLength (mergeExonsRun e (f :: rest)) = _
      rw [mergeExonsRun_sumLength]
      simp [sumLength]
  · match xs with
    | [] => exact ⟨x.length, [], rfl⟩
    | y :: ys => exact mergeExonsRun_head (y :: ys) x
  · match xs with
    | [] => simp [mergeExons]
    | [e] => simp [mergeExons]
    | e :: f :: rest =>
      show (mergeExonsRun e (f :: rest)).length ≤ _
      have := mergeExonsRun_length_le (f :: rest) e
      simpa using this

/-! ## Claim C1: the missing incomplete-codon-pair check -/

/-- C1: the spec (and the repository's own tests, which expect the error
"geneio: only one of start/stop codon found for F1") demands that a
transcript block carrying exactly one of start_codon/stop_codon fail with
IncompleteCodonPair. The code has no such check: on the test inputs
"Single coding gene with no stop_codon" and "Single coding gene with no
start_codon" (0-based, as the gff layer delivers them), `ToGene` succeeds.
A start_codon-only block yields a Coding transcript whose `CDSend` is the
Go zero value 0; a stop_codon-only block is classified NonCoding and the
stop_codon is silently dropped. -/
theorem claim_C1_codon_pair_unchecked :
    toGene ⟨"F", "X", .forward,
        [⟨"F", "F1", "exon", .forward, "X", 1, 70⟩,
         ⟨"F", "F1", "exon", .forward, "X", 70, 90⟩,
         ⟨"F", "F1", "start_codon", .forward, "X", 59, 62⟩]⟩ =
      .ok ⟨"F", .forward, "X", 1,
        [.coding ⟨"F1", "F", .forward, 0, 58, 0, [⟨0, 89⟩]⟩]⟩
    ∧ toGene ⟨"F", "X", .forward,
        [⟨"F", "F1", "exon", .forward, "X", 1, 70⟩,
         ⟨"F", "F1", "exon", .forward, "X", 70, 90⟩,
         ⟨"F", "F1", "stop_codon", .forward, "X", 80, 83⟩]⟩ =
      .ok ⟨"F", .forward, "X", 1,
        [.nonCoding ⟨"F1", "F", .forward, 0, [⟨0, 89⟩]⟩]⟩ := by
  decide

/-! ## Claim C2: reads after an error -/

/-- C2 counterexample: a gene-boundary error does not poison the reader.
The block of gene A fails (varying orientation), but `Read` has already
seeded the accumulator with gene B's first record, and the very next `Read`
returns gene B successfully. -/
theorem claim_C2_counterexample :
    (read ⟨[.item ⟨"A", "A1", "exon", .forward, "X", 0, 10⟩,
            .item ⟨"A", "A1", "exon", .reverse, "X", 20, 30⟩,
            .item ⟨"B", "B1", "exon", .forward, "X", 5, 15⟩], none⟩).1 =
      (none, some (.varyingOrientation "A"))
    ∧ (read (read ⟨[.item ⟨"A", "A1", "exon", .forward, "X", 0, 10⟩,
            .item ⟨"A", "A1", "exon", .reverse, "X", 20, 30⟩,
            .item ⟨"B", "B1", "exon", .forward, "X", 5, 15⟩], none⟩).2).1 =
      (some ⟨"B", .forward, "X", 5,
          [.nonCoding ⟨"B1", "B", .forward, 0, [⟨0, 10⟩]⟩]⟩, none) := by
  decide

/-- C2 as amended: only the Scanner guarantees no further reads after an
error. Once `Scanner.next` has stored an error, every later `next` returns
false with the scanner unchanged, so no further gene is ever produced;
`GeneReader.Read` itself can succeed right after a boundary error, because
the failed call already started the next gene's block
(`claim_C2_counterexample`). -/
theorem claim_C2_amended_scanner_sticky (s : Scanner) (e : Err)
    (h : s.err = some e) : Scanner.next s = (false, s) := by
  simp [Scanner.next, h]

/-- C2 witness: a scanner that has stored a source error stays stopped. -/
theorem claim_C2_witness :
    Scanner.next ⟨⟨[], none⟩, none, some (Err.src 7)⟩ =
      (false, ⟨⟨[], none⟩, none, some (Err.src 7)⟩) :=
  claim_C2_amended_scanner_sticky ⟨⟨[], none⟩, none, some (Err.src 7)⟩ (Err.src 7) rfl

/-! ## Claim C4: records of kind Other in the transcript builders -/

/-- A record the Transcript Builder's switch acts on; every other record is
of kind Other in the spec's sense. -/
def isKnownType (f : Feature) : Bool :=
  f.ftype == "exon" || f.ftype == "start_codon" || f.ftype == "stop_codon"

/-- C4 counterexample: an Other-kind record ("foo") with the smallest start
shifts the transcript's local minimum, so removing it changes the built
transcript (offset 0 with the record, offset 10 without; the exon offset
moves oppositely). -/
theorem claim_C4_counterexample :
    newTrancript ⟨"G", .forward, "X", 0, []⟩ "T"
        [⟨"G", "T", "foo", .forward, "X", 0, 5⟩,
         ⟨"G", "T", "exon", .forward, "X", 10, 20⟩] ≠
      newTrancript ⟨"G", .forward, "X", 0, []⟩ "T"
        (List.filter isKnownType
          [⟨"G", "T", "foo", .forward, "X", 0, 5⟩,
           ⟨"G", "T", "exon", .forward, "X", 10, 20⟩]) := by
  decide

theorem codingStep_other (a b : Int) (st : CodingParse) (f : Feature)
    (h : isKnownType f = false) : codingStep a b st f = st := by
  simp only [isKnownType, Bool.or_eq_false_iff, beq_eq_false_iff_ne, ne_eq] at h
  simp [codingStep, h.1.1, h.1.2, h.2]

theorem nonCodingStep_other (a b : Int) (st : List Exon) (f : Feature)
    (h : isKnownType f = false) : nonCodingStep a b st f = st := by
  simp only [isKnownType, Bool.or_eq_false_iff, beq_eq_false_iff_ne, ne_eq] at h
  simp [nonCodingStep, h.1.1]

theorem foldl_codingStep_filter (a b : Int) :
    ∀ (s : List Feature) (st : CodingParse),
      (s.filter isKnownType).foldl (codingStep a b) st =
        s.foldl (codingStep a b) st := by
  intro s
  induction s with
  | nil => intro st; rfl
  | cons f rest ih =>
    intro st
    cases hk : isKnownType f with
    | true => simp [List.filter_cons, hk, ih]
    | false => simp [List.filter_cons, hk, ih, codingStep_other a b st f hk]

theorem foldl_nonCodingStep_filter (a b : Int) :
    ∀ (s : List Feature) (st : List Exon),
      (s.filter isKnownType).foldl (nonCodingStep a b) st =
        s.foldl (nonCodingStep a b) st := by
  intro s
  induction s with
  | nil => intro st; rfl
  | cons f rest ih =>
    intro st
    cases hk : isKnownType f with
    | true => simp [List.filter_cons, hk, ih]
    | false => simp [List.filter_cons, hk, ih, nonCodingStep_other a b st f hk]

theorem any_startCodon_filter :
    ∀ s : List Feature,
      (s.filter isKnownType).any (fun f => f.ftype == "start_codon") =
        s.any (fun f => f.ftype == "start_codon") := by
  intro s
  induction s with
  | nil => rfl
  | cons f rest ih =>
    cases hk : isKnownType f with
    | true => simp [List.filter_cons, hk, ih]
    | false =>
      have hne : (f.ftype == "start_codon") = false := by
        simp only [isKnownType, Bool.or_eq_false_iff] at hk
        exact hk.1.2
      simp [List.filter_cons, hk, ih, hne]

/-- C4 as amended: Other-kind records are skipped by the coding
classification, the exon extraction and the CDS assignment, but they do
participate in the transcript's minimum-start computation; the transcript
is unchanged by removing them exactly when they do not lower that minimum. -/
theorem claim_C4_amended_other_records (g : Gene) (tid : String)
    (s : List Feature)
    (hmin : minStartFold (s.filter isKnownType) = minStartFold s) :
    newTrancript g tid (s.filter isKnownType) = newTrancript g tid s := by
  rw [newTrancript, newTrancript, any_startCodon_filter s]
  cases s.any (fun f => f.ftype == "start_codon") with
  | true =>
    simp only [if_true]
    rw [newCodingTranscript, newCodingTranscript, hmin,
      foldl_codingStep_filter]
  | false =>
    simp only [if_false, Bool.false_eq_true]
    rw [newNonCodingTranscript, newNonCodingTranscript, hmin,
      foldl_nonCodingStep_filter]

/-- C4 witness: removing a non-minimal Other record leaves the transcript
unchanged. -/
theorem claim_C4_witness :
    newTrancript ⟨"G", .forward, "X", 0, []⟩ "T"
        (List.filter isKnownType
          [⟨"G", "T", "exon", .forward, "X", 3, 9⟩,
           ⟨"G", "T", "foo", .forward, "X", 5, 8⟩]) =
      newTrancript ⟨"G", .forward, "X", 0, []⟩ "T"
        [⟨"G", "T", "exon", .forward, "X", 3, 9⟩,
         ⟨"G", "T", "foo", .forward, "X", 5, 8⟩] :=
  claim_C4_amended_other_records ⟨"G", .forward, "X", 0, []⟩ "T"
    [⟨"G", "T", "exon", .forward, "X", 3, 9⟩,
     ⟨"G", "T", "foo", .forward, "X", 5, 8⟩] (by decide)

/-! ## Minimum-start lemmas -/

theorem foldlMin_le_init :
    ∀ (l : List Feature) (a : Int),
      l.foldl (fun m f => if f.start < m then f.start else m) a ≤ a := by
  intro l
  induction l with
  | nil => intro a; simp
  | cons f rest ih =>
    intro a
    simp only [List.foldl_cons]
    refine le_trans (ih _) ?_
    by_cases h : f.start < a
    · rw [if_pos h]; omega
    · rw [if_neg h]

theorem foldlMin_le_mem :
    ∀ (l : List Feature) (a : Int) (f : Feature), f ∈ l →
      l.foldl (fun m f => if f.start < m then f.start else m) a ≤ f.start := by
  intro l
  induction l with
  | nil => intro a f hf; simp at hf
  | cons f0 rest ih =>
    intro a f hf
    simp only [List.foldl_cons]
    rcases List.mem_cons.mp hf with rfl | hmem
    · refine le_trans (foldlMin_le_init rest _) ?_
      by_cases h : f.start < a
      · rw [if_pos h]
      · rw [if_neg h]; omega
    · exact ih _ f hmem

theorem foldlMin_attained :
    ∀ (l : List Feature) (a : Int),
      l.foldl (fun m f => if f.start < m then f.start else m) a = a
      ∨ ∃ f ∈ l, l.foldl (fun m f => if f.start < m then f.start else m) a = f.start := by
  intro l
  induction l with
  | nil => intro a; exact Or.inl rfl
  | cons f0 rest ih =>
    intro a
    simp only [List.foldl_cons]
    by_cases h : f0.start < a
    · rw [if_pos h]
      rcases ih f0.start with heq | ⟨f, hmem, heq⟩
      · exact Or.inr ⟨f0, List.mem_cons_self f0 rest, heq⟩
      · exact Or.inr ⟨f, List.mem_cons_of_mem f0 hmem, heq⟩
    · rw [if_neg h]
      rcases ih a with heq | ⟨f, hmem, heq⟩
      · exact Or.inl heq
      · exact Or.inr ⟨f, List.mem_cons_of_mem f0 hmem, heq⟩

/-- On success, `ToGene`'s first loop computes exactly the running-minimum
fold of the record starts. -/
theorem scanBlock_ok_offset :
    ∀ (l : List Feature) (gOri : Ori) (gLoc : String) (gid : String) (a off : Int),
      scanBlock gOri gLoc gid a l = .ok off →
      off = l.foldl (fun m f => if f.start < m then f.start else m) a := by
  intro l
  induction l with
  | nil =>
    intro gOri gLoc gid a off h
    simp only [scanBlock] at h
    cases h
    rfl
  | cons f rest ih =>
    intro gOri gLoc gid a off h
    rw [scanBlock] at h
    by_cases h1 : f.ori ≠ gOri
    · rw [if_pos h1] at h; cases h
    · rw [if_neg h1] at h
      by_cases h2 : f.loc ≠ gLoc
      · rw [if_pos h2] at h; cases h
      · rw [if_neg h2] at h
        simpa using ih gOri gLoc gid _ off h

/-- On success, every record of the block has the block's orientation and
location. -/
theorem scanBlock_ok_consistent :
    ∀ (l : List Feature) (gOri : Ori) (gLoc : String) (gid : String) (a off : Int),
      scanBlock gOri gLoc gid a l = .ok off →
      ∀ f ∈ l, f.ori = gOri ∧ f.loc = gLoc := by
  intro l
  induction l with
  | nil => intro _ _ _ _ _ _ f hf; simp at hf
  | cons f0 rest ih =>
    intro gOri gLoc gid a off h f hf
    rw [scanBlock] at h
    by_cases h1 : f0.ori ≠ gOri
    · rw [if_pos h1] at h; cases h
    · rw [if_neg h1] at h
      by_cases h2 : f0.loc ≠ gLoc
      · rw [if_pos h2] at h; cases h
      · rw [if_neg h2] at h
        rcases List.mem_cons.mp hf with rfl | hmem
        · exact ⟨not_not.mp h1, not_not.mp h2⟩
        · exact ih gOri gLoc gid _ off h f hmem

/-! ## Claim C5: the gene offset -/

/-- C5: whenever gene construction succeeds on a non-empty block of Go-int
records, the gene's offset is the minimum record start over the whole
block, records of every kind included. -/
theorem claim_C5_gene_offset_min (b : GeneBlock) (g : Gene)
    (hne : b.feats ≠ []) (hbound : ∀ f ∈ b.feats, f.start ≤ maxInt)
    (hok : toGene b = .ok g) :
    (∀ f ∈ b.feats, g.offset ≤ f.start) ∧ ∃ f ∈ b.feats, g.offset = f.start := by
  rw [toGene] at hok
  cases hscan : scanBlock b.ori b.loc b.id maxInt b.feats with
  | error e => rw [hscan] at hok; cases hok
  | ok off =>
    rw [hscan] at hok
    cases hbt : buildTranscripts ⟨b.id, b.ori, b.loc, off, []⟩ b.feats with
    | error e => simp only [hbt] at hok; cases hok
    | ok ts =>
      simp only [hbt] at hok
      cases hok
      have hoff := scanBlock_ok_offset b.feats b.ori b.loc b.id maxInt off hscan
      constructor
      · intro f hf
        rw [hoff]
        exact foldlMin_le_mem b.feats maxInt f hf
      · rcases foldlMin_attained b.feats maxInt with heq | ⟨f, hmem, heq⟩
        · obtain ⟨f0, hf0⟩ := List.exists_mem_of_ne_nil b.feats hne
          refine ⟨f0, hf0, le_antisymm ?_ ?_⟩
          · rw [hoff]; exact foldlMin_le_mem b.feats maxInt f0 hf0
          · rw [hoff, heq]; exact hbound f0 hf0
        · exact ⟨f, hmem, by rw [hoff, heq]⟩

/-- C5 witness: a concrete two-exon gene block with minimum start 5. -/
theorem claim_C5_witness :
    (∀ f ∈ [(⟨"A", "A1", "exon", .forward, "X", 5, 8⟩ : Feature),
            ⟨"A", "A1", "exon", .forward, "X", 10, 20⟩],
        Gene.offset ⟨"A", .forward, "X", 5,
          [.nonCoding ⟨"A1", "A", .forward, 0, [⟨0, 3⟩, ⟨5, 10⟩]⟩]⟩ ≤ f.start)
    ∧ ∃ f ∈ [(⟨"A", "A1", "exon", .forward, "X", 5, 8⟩ : Feature),
            ⟨"A", "A1", "exon", .forward, "X", 10, 20⟩],
        Gene.offset ⟨"A", .forward, "X", 5,
          [.nonCoding ⟨"A1", "A", .forward, 0, [⟨0, 3⟩, ⟨5, 10⟩]⟩]⟩ = f.start :=
  claim_C5_gene_offset_min
    ⟨"A", "X", .forward,
      [⟨"A", "A1", "exon", .forward, "X", 5, 8⟩,
       ⟨"A", "A1", "exon", .forward, "X", 10, 20⟩]⟩
    ⟨"A", .forward, "X", 5,
      [.nonCoding ⟨"A1", "A", .forward, 0, [⟨0, 3⟩, ⟨5, 10⟩]⟩]⟩
    (by decide) (by decide) (by decide)

/-! ## Claim C3: location and orientation of the gene's descendants -/

/-- Every transcript either builder returns is placed on its gene
(`Loc: g`) with relative orientation Forward (`Orient: feat.Forward`). -/
theorem newTrancript_loc_orient (g : Gene) (tid : String) (s : List Feature)
    (t : Transcript) (hok : newTrancript g tid s = .ok t) :
    t.locGene = g.id ∧ t.orient = .forward := by
  rw [newTrancript] at hok
  by_cases hany : s.any (fun f => f.ftype == "start_codon") = true
  · rw [if_pos hany] at hok
    rw [newCodingTranscript] at hok
    by_cases hov : exonsOverlap (mergeExons
        (List.foldl (codingStep (minStartFold s - g.offset) g.offset) ⟨[], 0, 0⟩ s).exons) = true
    · rw [if_pos hov] at hok
      simp only [Except.map] at hok
      cases hok
    · rw [if_neg hov] at hok
      simp only [Except.map] at hok
      cases hok
      exact ⟨rfl, rfl⟩
  · rw [if_neg hany] at hok
    rw [newNonCodingTranscript] at hok
    by_cases hov : exonsOverlap (mergeExons
        (List.foldl (nonCodingStep (minStartFold s - g.offset) g.offset) [] s)) = true
    · rw [if_pos hov] at hok
      simp only [Except.map] at hok
      cases hok
    · rw [if_neg hov] at hok
      simp only [Except.map] at hok
      cases hok
      exact ⟨rfl, rfl⟩

theorem buildTransAux_loc_orient :
    ∀ (l : List Feature) (g : Gene) (tid : String) (run : List Feature)
      (ts : List Transcript),
      buildTransAux g tid run l = .ok ts →
      ∀ t ∈ ts, t.locGene = g.id ∧ t.orient = .forward := by
  intro l
  induction l with
  | nil =>
    intro g tid run ts h t ht
    rw [buildTransAux] at h
    cases hnt : newTrancript g tid run with
    | error e => rw [hnt] at h; cases h
    | ok t0 =>
      rw [hnt] at h
      simp only [Except.map] at h
      cases h
      rcases List.mem_singleton.mp ht with rfl
      exact newTrancript_loc_orient g tid run t hnt
  | cons f rest ih =>
    intro g tid run ts h t ht
    rw [buildTransAux] at h
    by_cases htid : f.tid = tid
    · rw [if_pos htid] at h
      exact ih g tid (run ++ [f]) ts h t ht
    · rw [if_neg htid] at h
      cases hnt : newTrancript g tid run with
      | error e => rw [hnt] at h; cases h
      | ok t0 =>
        rw [hnt] at h
        cases hbt : buildTransAux g f.tid [f] rest with
        | error e => rw [hbt] at h; cases h
        | ok ts0 =>
          rw [hbt] at h
          cases h
          rcases List.mem_cons.mp ht with rfl | hmem
          · exact newTrancript_loc_orient g tid run t hnt
          · exact ih g f.tid [f] ts0 hbt t hmem

/-- C3: for every successfully built Gene, every attached Transcript is
located on the gene itself (`Loc: g`) with relative orientation Forward, so
its resolved orientation (`oriCompose`) and resolved location are exactly
the gene's — for reverse genes as well as forward ones; and every source
record of the block carries the gene's orientation and location. Exons are
in turn located on their transcript (containment in this embedding) with no
orientation of their own, so they inherit the same resolved frame. -/
theorem claim_C3_shared_location_orientation (b : GeneBlock) (g : Gene)
    (hok : toGene b = .ok g) :
    (∀ t ∈ g.transcripts,
        t.locGene = g.id ∧ t.orient = .forward ∧
        oriCompose g.orient t.orient = g.orient)
    ∧ (∀ f ∈ b.feats, f.ori = g.orient ∧ f.loc = g.chrom) := by
  rw [toGene] at hok
  cases hscan : scanBlock b.ori b.loc b.id maxInt b.feats with
  | error e => rw [hscan] at hok; cases hok
  | ok off =>
    rw [hscan] at hok
    cases hbt : buildTranscripts ⟨b.id, b.ori, b.loc, off, []⟩ b.feats with
    | error e => simp only [hbt] at hok; cases hok
    | ok ts =>
      simp only [hbt] at hok
      cases hok
      constructor
      · intro t ht
        have hto : t.locGene = b.id ∧ t.orient = .forward := by
          cases hfeats : b.feats with
          | nil => rw [hfeats, buildTranscripts] at hbt; cases hbt; simp at ht
          | cons f rest =>
            rw [hfeats, buildTranscripts] at hbt
            exact buildTransAux_loc_orient rest _ f.tid [f] ts hbt t ht
        refine ⟨hto.1, hto.2, ?_⟩
        rw [hto.2]
        rfl
      · intro f hf
        exact scanBlock_ok_consistent b.feats b.ori b.loc b.id maxInt off hscan f hf

/-- C3 witness: a reverse-oriented two-exon gene. -/
theorem claim_C3_witness :
    (∀ t ∈ Gene.transcripts ⟨"D", .reverse, "X", 29,
        [.nonCoding ⟨"D1", "D", .forward, 0, [⟨0, 21⟩, ⟨50, 20⟩]⟩]⟩,
        t.locGene = "D" ∧ t.orient = .forward ∧
        oriCompose Ori.reverse t.orient = Ori.reverse)
    ∧ (∀ f ∈ [(⟨"D", "D1", "exon", .reverse, "X", 29, 50⟩ : Feature),
              ⟨"D", "D1", "exon", .reverse, "X", 79, 99⟩],
        f.ori = Ori.reverse ∧ f.loc = "X") :=
  claim_C3_shared_location_orientation
    ⟨"D", "X", .reverse,
      [⟨"D", "D1", "exon", .reverse, "X", 29, 50⟩,
       ⟨"D", "D1", "exon", .reverse, "X", 79, 99⟩]⟩
    ⟨"D", .reverse, "X", 29,
      [.nonCoding ⟨"D1", "D", .forward, 0, [⟨0, 21⟩, ⟨50, 20⟩]⟩]⟩
    (by decide)

/-! ## Claim C6: the transcript coordinate frame -/

theorem codingStep_exons (a b : Int) (st : CodingParse) (f : Feature) :
    (codingStep a b st f).exons =
      if f.ftype = "exon" then
        st.exons ++ [⟨f.start - a - b, f.fend - f.start⟩]
      else st.exons := by
  rw [codingStep]
  by_cases h1 : f.ftype = "exon"
  · rw [if_pos h1, if_pos h1]
  · rw [if_neg h1, if_neg h1]
    by_cases h2 : f.ftype = "start_codon"
    · rw [if_pos h2]
      cases f.ori <;> rfl
    · rw [if_neg h2]
      by_cases h3 : f.ftype = "stop_codon"
      · rw [if_pos h3]
        cases f.ori <;> rfl
      · rw [if_neg h3]

theorem foldl_codingStep_exons (a b : Int) :
    ∀ (s : List Feature) (st : CodingParse),
      (s.foldl (codingStep a b) st).exons =
        st.exons ++ (s.filter (fun f => f.ftype == "exon")).map
          (fun f => ⟨f.start - a - b, f.fend - f.start⟩) := by
  intro s
  induction s with
  | nil => intro st; simp
  | cons f rest ih =>
    intro st
    simp only [List.foldl_cons]
    rw [ih (codingStep a b st f)]
    by_cases h : f.ftype = "exon"
    · rw [codingStep_exons, if_pos h]
      simp [List.filter_cons, h]
    · rw [codingStep_exons, if_neg h]
      have hb : (f.ftype == "exon") = false := by simpa using h
      simp [List.filter_cons, hb]

theorem foldl_nonCodingStep_exons (a b : Int) :
    ∀ (s : List Feature) (st : List Exon),
      s.foldl (nonCodingStep a b) st =
        st ++ (s.filter (fun f => f.ftype == "exon")).map
          (fun f => ⟨f.start - a - b, f.fend - f.start⟩) := by
  intro s
  induction s with
  | nil => intro st; simp
  | cons f rest ih =>
    intro st
    simp only [List.foldl_cons]
    rw [ih (nonCodingStep a b st f)]
    by_cases h : f.ftype = "exon"
    · rw [nonCodingStep, if_pos h]
      simp [List.filter_cons, h]
    · rw [nonCodingStep, if_neg h]
      have hb : (f.ftype == "exon") = false := by simpa using h
      simp [List.filter_cons, hb]

/-- The two offset subtractions of the source cancel: with the transcript
offset `lm - goff`, each extracted coordinate `x - tOffset - gOffset` is
`x - lm`. -/
theorem double_subtraction_net (x lm goff : Int) : x - (lm - goff) - goff = x - lm := by
  ring

/-- C6: when a transcript builds successfully from a non-empty block of
Go-int records, its offset is the block's minimum start minus the gene
offset, and its exon slice is the merge of one exon per record of type
"exon", in input order, with `offset = start - local_min` and
`length = end - start` (the source's double subtraction
`start - t.Offset - g.Offset` nets to `start - local_min`). -/
theorem claim_C6_transcript_frame (g : Gene) (tid : String) (s : List Feature)
    (t : Transcript) (hne : s ≠ []) (hbound : ∀ f ∈ s, f.start ≤ maxInt)
    (hok : newTrancript g tid s = .ok t) :
    ((∀ f ∈ s, minStartFold s ≤ f.start) ∧ ∃ f ∈ s, minStartFold s = f.start)
    ∧ t.offset = minStartFold s - g.offset
    ∧ t.exons = mergeExons ((s.filter (fun f => f.ftype == "exon")).map
        (fun f => ⟨f.start - minStartFold s, f.fend - f.start⟩)) := by
  have hmin : (∀ f ∈ s, minStartFold s ≤ f.start) ∧ ∃ f ∈ s, minStartFold s = f.start := by
    constructor
    · intro f hf
      exact foldlMin_le_mem s maxInt f hf
    · rcases foldlMin_attained s maxInt with heq | ⟨f, hmem, heq⟩
      · obtain ⟨f0, hf0⟩ := List.exists_mem_of_ne_nil s hne
        refine ⟨f0, hf0, le_antisymm ?_ ?_⟩
        · exact foldlMin_le_mem s maxInt f0 hf0
        · rw [minStartFold, heq]; exact hbound f0 hf0
      · exact ⟨f, hmem, heq⟩
  refine ⟨hmin, ?_⟩
  have hfun : (fun f : Feature =>
      (⟨f.start - (minStartFold s - g.offset) - g.offset, f.fend - f.start⟩ : Exon)) =
      fun f : Feature => (⟨f.start - minStartFold s, f.fend - f.start⟩ : Exon) := by
    funext f
    rw [double_subtraction_net]
  rw [newTrancript] at hok
  by_cases hany : s.any (fun f => f.ftype == "start_codon") = true
  · rw [if_pos hany] at hok
    rw [newCodingTranscript] at hok
    by_cases hov : exonsOverlap (mergeExons
        (List.foldl (codingStep (minStartFold s - g.offset) g.offset) ⟨[], 0, 0⟩ s).exons) = true
    · rw [if_pos hov] at hok
      simp only [Except.map] at hok
      cases hok
    · rw [if_neg hov] at hok
      simp only [Except.map] at hok
      cases hok
      refine ⟨rfl, ?_⟩
      show mergeExons _ = _
      rw [foldl_codingStep_exons]
      simp only [List.nil_append]
      rw [hfun]
  · rw [if_neg hany] at hok
    rw [newNonCodingTranscript] at hok
    by_cases hov : exonsOverlap (mergeExons
        (List.foldl (nonCodingStep (minStartFold s - g.offset) g.offset) [] s)) = true
    · rw [if_pos hov] at hok
      simp only [Except.map] at hok
      cases hok
    · rw [if_neg hov] at hok
      simp only [Except.map] at hok
      cases hok
      refine ⟨rfl, ?_⟩
      show mergeExons _ = _
      rw [foldl_nonCodingStep_exons]
      simp only [List.nil_append]
      rw [hfun]

/-- C6 witness: a concrete two-exon transcript block over a gene at
offset 5. -/
theorem claim_C6_witness :
    ((∀ f ∈ [(⟨"A", "A1", "exon", .forward, "X", 5, 8⟩ : Feature),
             ⟨"A", "A1", "exon", .forward, "X", 10, 20⟩],
        minStartFold [(⟨"A", "A1", "exon", .forward, "X", 5, 8⟩ : Feature),
             ⟨"A", "A1", "exon", .forward, "X", 10, 20⟩] ≤ f.start)
      ∧ ∃ f ∈ [(⟨"A", "A1", "exon", .forward, "X", 5, 8⟩ : Feature),
             ⟨"A", "A1", "exon", .forward, "X", 10, 20⟩],
        minStartFold [(⟨"A", "A1", "exon", .forward, "X", 5, 8⟩ : Feature),
             ⟨"A", "A1", "exon", .forward, "X", 10, 20⟩] = f.start)
    ∧ Transcript.offset (.nonCoding ⟨"A1", "A", .forward, 0, [⟨0, 3⟩, ⟨5, 10⟩]⟩) =
        minStartFold [(⟨"A", "A1", "exon", .forward, "X", 5, 8⟩ : Feature),
             ⟨"A", "A1", "exon", .forward, "X", 10, 20⟩] - 5
    ∧ Transcript.exons (.nonCoding ⟨"A1", "A", .forward, 0, [⟨0, 3⟩, ⟨5, 10⟩]⟩) =
        mergeExons ((List.filter (fun f => f.ftype == "exon")
            [(⟨"A", "A1", "exon", .forward, "X", 5, 8⟩ : Feature),
             ⟨"A", "A1", "exon", .forward, "X", 10, 20⟩]).map
          (fun f => ⟨f.start - minStartFold
              [(⟨"A", "A1", "exon", .forward, "X", 5, 8⟩ : Feature),
               ⟨"A", "A1", "exon", .forward, "X", 10, 20⟩], f.fend - f.start⟩)) :=
  claim_C6_transcript_frame ⟨"A", .forward, "X", 5, []⟩ "A1"
    [⟨"A", "A1", "exon", .forward, "X", 5, 8⟩,
     ⟨"A", "A1", "exon", .forward, "X", 10, 20⟩]
    (.nonCoding ⟨"A1", "A", .forward, 0, [⟨0, 3⟩, ⟨5, 10⟩]⟩)
    (by decide) (by decide) (by decide)

/-! ## Unfolding lemmas for the `ReadAll` loop -/

theorem readAll_eq_eof (st : RState) (r : Option Gene) (st' : RState)
    (h : read st = ((r, some .eof), st')) : readAll st = ([], none) := by
  rw [readAll.eq_def]
  split <;> simp_all

theorem readAll_eq_err (st : RState) (r : Option Gene) (st' : RState) (e : Err)
    (he : e ≠ .eof) (h : read st = ((r, some e), st')) :
    readAll st = ([], some e) := by
  rw [readAll.eq_def]
  split <;> simp_all

theorem readAll_eq_ok (st : RState) (g : Gene) (st' : RState)
    (h : read st = ((some g, none), st')) :
    readAll st = match readAll st' with
      | (gs, none) => (g :: gs, none)
      | (_, some e) => ([], some e) := by
  rw [readAll.eq_def]
  split <;> simp_all

/-! ## Claim C7: strand-aware CDS assignment and the end-to-end scenario -/

/-- C7: the CDS table of the coding parse loop — with the transcript offset
`lm - goff` as set by the builder, a Forward start_codon sets
`cds_start = start - lm`, a Reverse start_codon sets `cds_end = end - lm`,
a Forward stop_codon sets `cds_end = end - lm`, a Reverse stop_codon sets
`cds_start = start - lm`, each leaving every other field unchanged — and
the spec's end-to-end forward-strand scenario: records exon[10,20),
exon[50,90), stop_codon[60,62), start_codon[71,73) for gene A/transcript A1
produce exactly one Gene with offset 10 holding one Coding transcript with
offset 0, cds_start 61, cds_end 52 and unmerged exons {0,10} and {40,40}. -/
theorem claim_C7_cds_table_and_scenario :
    (∀ (lm goff : Int) (st : CodingParse) (f : Feature),
        f.ftype = "start_codon" → f.ori = .forward →
        codingStep (lm - goff) goff st f = { st with cdsStart := f.start - lm })
    ∧ (∀ (lm goff : Int) (st : CodingParse) (f : Feature),
        f.ftype = "start_codon" → f.ori = .reverse →
        codingStep (lm - goff) goff st f = { st with cdsEnd := f.fend - lm })
    ∧ (∀ (lm goff : Int) (st : CodingParse) (f : Feature),
        f.ftype = "stop_codon" → f.ori = .forward →
        codingStep (lm - goff) goff st f = { st with cdsEnd := f.fend - lm })
    ∧ (∀ (lm goff : Int) (st : CodingParse) (f : Feature),
        f.ftype = "stop_codon" → f.ori = .reverse →
        codingStep (lm - goff) goff st f = { st with cdsStart := f.start - lm })
    ∧ readAll ⟨[.item ⟨"A", "A1", "exon", .forward, "chr", 10, 20⟩,
                .item ⟨"A", "A1", "exon", .forward, "chr", 50, 90⟩,
                .item ⟨"A", "A1", "stop_codon", .forward, "chr", 60, 62⟩,
                .item ⟨"A", "A1", "start_codon", .forward, "chr", 71, 73⟩], none⟩ =
        ([⟨"A", .forward, "chr", 10,
            [.coding ⟨"A1", "A", .forward, 0, 61, 52, [⟨0, 10⟩, ⟨40, 40⟩]⟩]⟩], none) := by
  refine ⟨?_, ?_, ?_, ?_, ?_⟩
  · intro lm goff st f hft hori
    rw [codingStep, if_neg (by rw [hft]; decide), if_pos hft]
    simp only [hori]
    rw [double_subtraction_net]
  · intro lm goff st f hft hori
    rw [codingStep, if_neg (by rw [hft]; decide), if_pos hft]
    simp only [hori]
    rw [double_subtraction_net]
  · intro lm goff st f hft hori
    rw [codingStep, if_neg (by rw [hft]; decide), if_neg (by rw [hft]; decide),
      if_pos hft]
    simp only [hori]
    rw [double_subtraction_net]
  · intro lm goff st f hft hori
    rw [codingStep, if_neg (by rw [hft]; decide), if_neg (by rw [hft]; decide),
      if_pos hft]
    simp only [hori]
    rw [double_subtraction_net]
  · have h1 : read ⟨[.item ⟨"A", "A1", "exon", .forward, "chr", 10, 20⟩,
                .item ⟨"A", "A1", "exon", .forward, "chr", 50, 90⟩,
                .item ⟨"A", "A1", "stop_codon", .forward, "chr", 60, 62⟩,
                .item ⟨"A", "A1", "start_codon", .forward, "chr", 71, 73⟩], none⟩ =
        ((some ⟨"A", .forward, "chr", 10,
            [.coding ⟨"A1", "A", .forward, 0, 61, 52, [⟨0, 10⟩, ⟨40, 40⟩]⟩]⟩, none),
          ⟨[], none⟩) := by decide
    have h2 : read ⟨[], none⟩ = ((none, some .eof), ⟨[], none⟩) := rfl
    rw [readAll_eq_ok _ _ _ h1, readAll_eq_eof _ _ _ h2]

/-- C7 witness: the table at a concrete Forward start_codon record. -/
theorem claim_C7_witness :
    codingStep (0 - 0) 0 ⟨[], 0, 0⟩ ⟨"A", "A1", "start_codon", .forward, "X", 7, 9⟩ =
      ⟨[], 7 - 0, 0⟩ :=
  claim_C7_cds_table_and_scenario.1 0 0 ⟨[], 0, 0⟩
    ⟨"A", "A1", "start_codon", .forward, "X", 7, 9⟩ rfl rfl

/-! ## Claim C8: the whole-stream abort policy of `ReadAll` -/

theorem readAll_invariant :
    ∀ (n : Nat) (st : RState), rmeasure st ≤ n →
      ((readAll st).2.isSome → (readAll st).1 = [])
      ∧ (readAll st).2 ≠ some .eof := by
  intro n
  induction n with
  | zero =>
    intro st hm
    obtain ⟨src, blk⟩ := st
    have hsrc : src = [] := by
      cases src with
      | nil => rfl
      | cons x xs => simp [rmeasure] at hm
    subst hsrc
    have hblk : blk = none := by
      cases blk with
      | none => rfl
      | some b => simp [rmeasure] at hm
    subst hblk
    rw [readAll_eq_eof ⟨[], none⟩ none ⟨[], none⟩ rfl]
    simp
  | succ n ih =>
    intro st hm
    rcases hread : read st with ⟨⟨og, oe⟩, st'⟩
    cases oe with
    | some e =>
      by_cases he : e = .eof
      · subst he
        rw [readAll_eq_eof st og st' hread]
        simp
      · rw [readAll_eq_err st og st' e he hread]
        simp [he]
    | none =>
      cases og with
      | none =>
        have := read_no_silent st.src st.blk
        rw [show readGo st.src st.blk = read st from rfl, hread] at this
        simp at this
      | some g =>
        have hlt : rmeasure st' < rmeasure st := by
          have := read_success_rmeasure st.src st.blk g st'
            (by rw [show readGo st.src st.blk = read st from rfl, hread])
          simpa using this
        have hih := ih st' (by omega)
        rw [readAll_eq_ok st g st' hread]
        rcases hra : readAll st' with ⟨gs, oe2⟩
        cases oe2 with
        | none => simp
        | some e =>
          have he : e ≠ .eof := by
            intro hc
            subst hc
            exact hih.2 (by rw [hra])
          simp [he]

/-- C8: `ReadAll` never hands back a partial gene list alongside an error
(the gene component of an error return is empty), never surfaces
end-of-input as an error, ends the collection loop with no error when a
`Read` reports `io.EOF`, returns exactly the single failing `Read`'s error
otherwise, and on a successful `Read` collects that gene and continues,
discarding everything if the remainder fails. -/
theorem claim_C8_readAll_abort_policy :
    (∀ st : RState, (readAll st).2.isSome → (readAll st).1 = [])
    ∧ (∀ st : RState, (readAll st).2 ≠ some .eof)
    ∧ (∀ (st : RState) (r : Option Gene) (st' : RState),
        read st = ((r, some .eof), st') → readAll st = ([], none))
    ∧ (∀ (st : RState) (r : Option Gene) (st' : RState) (e : Err), e ≠ .eof →
        read st = ((r, some e), st') → readAll st = ([], some e))
    ∧ (∀ (st : RState) (g : Gene) (st' : RState),
        read st = ((some g, none), st') →
        readAll st = match readAll st' with
          | (gs, none) => (g :: gs, none)
          | (_, some e) => ([], some e)) :=
  ⟨fun st => (readAll_invariant (rmeasure st) st le_rfl).1,
   fun st => (readAll_invariant (rmeasure st) st le_rfl).2,
   fun st r st' h => readAll_eq_eof st r st' h,
   fun st r st' e he h => readAll_eq_err st r st' e he h,
   fun st g st' h => readAll_eq_ok st g st' h⟩

/-- C8 witness: a one-gene stream drains into a one-gene list with no
error, and a stream whose first pull fails returns the empty list with that
error. -/
theorem claim_C8_witness :
    readAll ⟨[.item ⟨"A", "A1", "exon", .forward, "X", 0, 10⟩], none⟩ =
      ([⟨"A", .forward, "X", 0, [.nonCoding ⟨"A1", "A", .forward, 0, [⟨0, 10⟩]⟩]⟩], none)
    ∧ readAll ⟨[.fail 3], none⟩ = ([], some (.src 3)) := by
  constructor
  · rw [claim_C8_readAll_abort_policy.2.2.2.2
        ⟨[.item ⟨"A", "A1", "exon", .forward, "X", 0, 10⟩], none⟩
        ⟨"A", .forward, "X", 0, [.nonCoding ⟨"A1", "A", .forward, 0, [⟨0, 10⟩]⟩]⟩
        ⟨[], none⟩ (by decide),
      claim_C8_readAll_abort_policy.2.2.1 ⟨[], none⟩ none ⟨[], none⟩ rfl]
  · exact claim_C8_readAll_abort_policy.2.2.2.1 ⟨[.fail 3], none⟩ none ⟨[], none⟩
      (.src 3) (by decide) rfl

end Geneio
